import Mathlib

/-!
Verification of the PeakTech 2025 frame decoder (`src/pt2025.py`, function
`decode`, lines 83–157) against its natural-language specification.

The decoder is embedded shallowly: a frame is a `List Nat` of byte values
(a Python `bytes` object of length 14 has entries `< 256`), and every
exception path of the Python code is an explicit `DecodeError` value.
Python's `float(...)` parsing of the assembled digit string is modelled
with exact rational arithmetic (the spec's data model treats `value` as a
decimal number); the grammar accepted by `float` — optional surrounding
whitespace, an optional sign, `inf`/`infinity`/`nan` case-insensitively,
and decimal literals with optional fraction, exponent and underscores
between digits — is modelled for code points in the Latin-1 range, which
covers every character the 4-byte digit field of a frame can produce from
ASCII input (code points above `0xFF` are treated as unparsable).
-/

namespace PT2025

/-- Decoded numeric value: the over-range sentinel `'OL'` (a string in the
Python source), or the result of `float(...)` — a finite number, a signed
infinity, or NaN. Finite values are modelled as exact rationals. -/
inductive Value where
  | OL : Value
  | num : ℚ → Value
  | inf : Bool → Value
  | nan : Value
deriving DecidableEq

/-- Error outcomes of `decode`. `wrongLength` is the explicit length check
(line 85); `invalidDigitBytes` is the `UnicodeDecodeError` raised by
`line[1:5].decode()` on non-UTF-8 bytes (line 90); `invalidDecimalPosition`
is the `ValueError` raised by `int(chr(line[6]))` on a non-digit byte
(line 91); `invalidDigits` is the `ValueError` raised by `float(...)`
(line 147). -/
inductive DecodeError where
  | wrongLength : Nat → DecodeError
  | invalidDigitBytes : DecodeError
  | invalidDecimalPosition : DecodeError
  | invalidDigits : DecodeError
deriving DecidableEq

/-- The dictionary returned by `decode` (lines 151–157). `sign` is the
list of code points of the sign string (`chr(line[0])`, or empty in the
over-range case); `unit`, `mode` and `status` hold the exact strings the
Python code uses. -/
structure Reading where
  sign : List Nat
  value : Value
  unit : String
  mode : Option String
  status : List String
deriving DecidableEq

deriving instance DecidableEq for Except

/-- Characters stripped by Python's `float()` before parsing
(`Py_UNICODE_ISSPACE`, restricted to the Latin-1 range). -/
def isPySpace (c : Nat) : Bool :=
  decide (c = 0x09 ∨ c = 0x0A ∨ c = 0x0B ∨ c = 0x0C ∨ c = 0x0D ∨
          c = 0x1C ∨ c = 0x1D ∨ c = 0x1E ∨ c = 0x1F ∨ c = 0x20 ∨
          c = 0x85 ∨ c = 0xA0)

/-- ASCII decimal digit (the only code points in the Latin-1 range that
Python's number parsing accepts as digits). -/
def isDigitC (c : Nat) : Bool :=
  decide (0x30 ≤ c ∧ c ≤ 0x39)

/-- ASCII lower-casing, as used by CPython's case-insensitive match of
`inf` / `infinity` / `nan`. -/
def lowerAscii (c : Nat) : Nat :=
  if 0x41 ≤ c ∧ c ≤ 0x5A then c + 0x20 else c

/-- Consume a maximal run of digits with single underscores allowed
between digits (PEP 515), accumulating the decimal value and digit count.
Returns the value, the digit count, and the unconsumed rest. -/
def digitsCore : Nat → Nat → List Nat → Nat × Nat × List Nat
  | acc, cnt, [] => (acc, cnt, [])
  | acc, cnt, c :: rest =>
    if isDigitC c then digitsCore (acc * 10 + (c - 0x30)) (cnt + 1) rest
    else if c = 0x5F then
      match rest with
      | d :: rest2 =>
        if isDigitC d then digitsCore (acc * 10 + (d - 0x30)) (cnt + 1) rest2
        else (acc, cnt, c :: rest)
      | [] => (acc, cnt, [c])
    else (acc, cnt, c :: rest)

/-- A `digitpart` of the Python float grammar: a nonempty digit run
(underscores between digits allowed) that must start with a digit. -/
def parseDigitPart? (s : List Nat) : Option (Nat × Nat × List Nat) :=
  match s with
  | c :: _ => if isDigitC c then some (digitsCore 0 0 s) else none
  | [] => none

/-- Mantissa of the Python float grammar: `digitpart [. [digitpart]]` or
`. digitpart`. Returns the exact rational value and the unconsumed rest. -/
def parseMantissa (s : List Nat) : Option (ℚ × List Nat) :=
  match parseDigitPart? s with
  | some (iv, _, r1) =>
    match r1 with
    | c :: r2 =>
      if c = 0x2E then
        match parseDigitPart? r2 with
        | some (fv, fc, r3) => some (((iv * 10 ^ fc + fv : Nat) : ℚ) / (10 : ℚ) ^ fc, r3)
        | none => some ((iv : ℚ), r2)
      else some ((iv : ℚ), r1)
    | [] => some ((iv : ℚ), r1)
  | none =>
    match s with
    | c :: r2 =>
      if c = 0x2E then
        match parseDigitPart? r2 with
        | some (fv, fc, r3) => some (((fv : Nat) : ℚ) / (10 : ℚ) ^ fc, r3)
        | none => none
      else none
    | [] => none

/-- Take an optional leading ASCII `'+'` or `'-'`; returns the negativity
flag and the rest. -/
def pySplitSign : List Nat → Bool × List Nat
  | 0x2B :: r => (false, r)
  | 0x2D :: r => (true, r)
  | t => (false, t)

/-- Optional exponent part of the Python float grammar: either nothing is
left, or `('e'|'E') [sign] digitpart` consumes the entire rest. -/
def parseExp (q : ℚ) : List Nat → Option ℚ
  | [] => some q
  | e :: r1 =>
    if e = 0x65 ∨ e = 0x45 then
      match parseDigitPart? (pySplitSign r1).2 with
      | some (ev, _, r3) =>
        if r3 = [] then
          some (if (pySplitSign r1).1 then q / (10 : ℚ) ^ ev else q * (10 : ℚ) ^ ev)
        else none
      | none => none
    else none

/-- Strip Python whitespace from both ends of the character list. -/
def stripPySpaces (s : List Nat) : List Nat :=
  ((s.dropWhile isPySpace).reverse.dropWhile isPySpace).reverse

/-- Python's `float(str)` on a list of character code points: strip
whitespace, take an optional sign, then either a case-insensitive
`inf`/`infinity`/`nan` or a decimal literal with optional exponent.
`none` models the `ValueError` raised on any other input. -/
def pyFloat (s : List Nat) : Option Value :=
  let neg := (pySplitSign (stripPySpaces s)).1
  let u := (pySplitSign (stripPySpaces s)).2
  let lu := u.map lowerAscii
  if lu = [0x69, 0x6E, 0x66] ∨ lu = [0x69, 0x6E, 0x66, 0x69, 0x6E, 0x69, 0x74, 0x79] then
    some (.inf neg)
  else if lu = [0x6E, 0x61, 0x6E] then
    some .nan
  else
    match parseMantissa u with
    | some (q, r) =>
      match parseExp q r with
      | some q2 => some (.num (if neg then -q2 else q2))
      | none => none
    | none => none

/-- UTF-8 continuation byte. -/
def isUtf8Cont (b : Nat) : Bool :=
  decide (0x80 ≤ b ∧ b ≤ 0xBF)

/-- Decode one UTF-8 sequence from the front of a byte list: the leading
byte selects a 1–4 byte form; overlong forms, surrogates and code points
above `0x10FFFF` are rejected. Returns the code point and the remaining
bytes. -/
def utf8DecodeCp (b1 : Nat) (t1 : List Nat) : Option (Nat × List Nat) :=
  if b1 < 0x80 then some (b1, t1)
  else if b1 < 0xC2 then none
  else if b1 < 0xE0 then
    match t1 with
    | b2 :: t2 =>
      if isUtf8Cont b2 then some ((b1 - 0xC0) * 0x40 + (b2 - 0x80), t2) else none
    | [] => none
  else if b1 < 0xF0 then
    match t1 with
    | b2 :: b3 :: t3 =>
      if isUtf8Cont b2 ∧ isUtf8Cont b3 ∧ (b1 ≠ 0xE0 ∨ 0xA0 ≤ b2) ∧ (b1 ≠ 0xED ∨ b2 ≤ 0x9F) then
        some ((b1 - 0xE0) * 0x1000 + (b2 - 0x80) * 0x40 + (b3 - 0x80), t3)
      else none
    | _ => none
  else if b1 < 0xF5 then
    match t1 with
    | b2 :: b3 :: b4 :: t4 =>
      if isUtf8Cont b2 ∧ isUtf8Cont b3 ∧ isUtf8Cont b4 ∧
          (b1 ≠ 0xF0 ∨ 0x90 ≤ b2) ∧ (b1 ≠ 0xF4 ∨ b2 ≤ 0x8F) then
        some ((b1 - 0xF0) * 0x40000 + (b2 - 0x80) * 0x1000 + (b3 - 0x80) * 0x40 + (b4 - 0x80),
          t4)
      else none
    | _ => none
  else none

/-- Iterate `utf8DecodeCp` over the whole byte list. The first argument is
recursion fuel; each step consumes at least the leading byte, so fuel
equal to the list length always suffices. -/
def utf8DecodeGo : Nat → List Nat → Option (List Nat)
  | _, [] => some []
  | 0, _ :: _ => none
  | fuel + 1, b1 :: t1 =>
    match utf8DecodeCp b1 t1 with
    | some (cp, rest) => (utf8DecodeGo fuel rest).map (fun cs => cp :: cs)
    | none => none

/-- Strict UTF-8 decoding of a byte list into code points, as performed by
Python's `bytes.decode()`: rejects overlong forms, surrogates, and code
points above `0x10FFFF`. `none` models `UnicodeDecodeError`. -/
def utf8Decode (l : List Nat) : Option (List Nat) :=
  utf8DecodeGo l.length l

/-- Python's `int(chr(b))` for a single byte: succeeds exactly on the
ASCII digits `'0'`–`'9'` (the only Unicode decimal digits in the Latin-1
range), yielding the digit value (source line 91). -/
def parseDecPos (b : Nat) : Option Nat :=
  if 0x30 ≤ b ∧ b ≤ 0x39 then some (b - 0x30) else none

/-- The status list built by lines 100–114: thirteen conditional appends,
in source order. `'%'` is the source's string for the Percent tag. -/
def statusOf (status_byte_1 status_byte_2 status_byte_3 : Nat) : List String :=
  (if status_byte_1 &&& 2 ^ 0 ≠ 0 then ["BPN"] else []) ++
  (if status_byte_1 &&& 2 ^ 1 ≠ 0 then ["HOLD"] else []) ++
  (if status_byte_1 &&& 2 ^ 2 ≠ 0 then ["REL"] else []) ++
  (if status_byte_1 &&& 2 ^ 3 ≠ 0 then ["AC"] else []) ++
  (if status_byte_1 &&& 2 ^ 4 ≠ 0 then ["DC"] else []) ++
  (if status_byte_1 &&& 2 ^ 5 ≠ 0 then ["AUTO"] else []) ++
  (if status_byte_2 &&& 2 ^ 2 ≠ 0 then ["BATT"] else []) ++
  (if status_byte_2 &&& 2 ^ 3 ≠ 0 then ["APO"] else []) ++
  (if status_byte_2 &&& 2 ^ 4 ≠ 0 then ["MIN"] else []) ++
  (if status_byte_2 &&& 2 ^ 5 ≠ 0 then ["MAX"] else []) ++
  (if status_byte_3 &&& 2 ^ 1 ≠ 0 then ["%"] else []) ++
  (if status_byte_3 &&& 2 ^ 2 ≠ 0 then ["Diode"] else []) ++
  (if status_byte_3 &&& 2 ^ 3 ≠ 0 then ["Continuity"] else [])

/-- The unit string computed by lines 116–120: starts empty, then four
sequential overwriting checks of bits 4–7 of status byte 3. -/
def unitOf (status_byte_3 : Nat) : String :=
  let u := ""
  let u := if status_byte_3 &&& 2 ^ 4 ≠ 0 then "M" else u
  let u := if status_byte_3 &&& 2 ^ 5 ≠ 0 then "k" else u
  let u := if status_byte_3 &&& 2 ^ 6 ≠ 0 then "m" else u
  if status_byte_3 &&& 2 ^ 7 ≠ 0 then "µ" else u

/-- The mode computed by lines 122–130: starts as `None`, then eight
sequential overwriting checks of bits 0–7 of status byte 4. -/
def modeOf (status_byte_4 : Nat) : Option String :=
  let m : Option String := none
  let m := if status_byte_4 &&& 2 ^ 0 ≠ 0 then some "°F" else m
  let m := if status_byte_4 &&& 2 ^ 1 ≠ 0 then some "°C" else m
  let m := if status_byte_4 &&& 2 ^ 2 ≠ 0 then some "F" else m
  let m := if status_byte_4 &&& 2 ^ 3 ≠ 0 then some "Hz" else m
  let m := if status_byte_4 &&& 2 ^ 4 ≠ 0 then some "hFE" else m
  let m := if status_byte_4 &&& 2 ^ 5 ≠ 0 then some "Ω" else m
  let m := if status_byte_4 &&& 2 ^ 6 ≠ 0 then some "A" else m
  if status_byte_4 &&& 2 ^ 7 ≠ 0 then some "V" else m

/-- The code points of the over-range sentinel string `'?0:?'`. -/
def overrangeSentinel : List Nat := [0x3F, 0x30, 0x3A, 0x3F]

/-- Python's `list.insert(i, c)`: inserts before index `i`, appending at
the end when `i` exceeds the length (used with `i = min(decpos, 3)`,
line 143). -/
def pyInsert (l : List Nat) (i : Nat) (c : Nat) : List Nat :=
  l.take i ++ c :: l.drop i

/-- The frame decoder, translated from `decode` (src/pt2025.py lines
83–157). The input is the byte list `line`; every exception path of the
source is an explicit `DecodeError`. Byte 5, the bar-graph byte 11
(read at line 96 but never used) and bytes 12–13 are not consulted. -/
def decode (line : List Nat) : Except DecodeError Reading :=
  if line.length ≠ 14 then
    .error (.wrongLength line.length)
  else
    let sign : List Nat := [line.getD 0 0]
    match utf8Decode ((line.drop 1).take 4) with
    | none => .error .invalidDigitBytes
    | some digits =>
      match parseDecPos (line.getD 6 0) with
      | none => .error .invalidDecimalPosition
      | some decpos =>
        let status_byte_1 := line.getD 7 0
        let status_byte_2 := line.getD 8 0
        let status_byte_3 := line.getD 9 0
        let status_byte_4 := line.getD 10 0
        let status := statusOf status_byte_1 status_byte_2 status_byte_3
        let unit0 := unitOf status_byte_3
        let mode := modeOf status_byte_4
        let unit :=
          if mode = some "F" then
            (if status_byte_2 &&& 2 ^ 1 ≠ 0 then "n" else unit0)
          else unit0
        if digits = overrangeSentinel then
          .ok ⟨[], .OL, unit, mode, status⟩
        else
          let digits_a := if decpos > 0 then pyInsert digits (min decpos 3) 0x2E else digits
          match pyFloat digits_a with
          | none => .error .invalidDigits
          | some v => .ok ⟨sign, v, unit, mode, status⟩

/-! Specification-side definitions, written from the claims' wording, to be
compared with the source-derived functions above. -/

/-- Mode selection as the claims word it: the tag of the highest-indexed
set bit among bits 0–7 of status byte 4, or `none` if no bit is set. -/
def modeHighestBit (b : Nat) : Option String :=
  if b.testBit 7 then some "V"
  else if b.testBit 6 then some "A"
  else if b.testBit 5 then some "Ω"
  else if b.testBit 4 then some "hFE"
  else if b.testBit 3 then some "Hz"
  else if b.testBit 2 then some "F"
  else if b.testBit 1 then some "°C"
  else if b.testBit 0 then some "°F"
  else none

/-- Unit selection as the claims word it: the tag of the highest-numbered
set bit among bits 4–7 of status byte 3, or the empty (none) unit. -/
def unitHighestBit (b : Nat) : String :=
  if b.testBit 7 then "µ"
  else if b.testBit 6 then "m"
  else if b.testBit 5 then "k"
  else if b.testBit 4 then "M"
  else ""

/-- Numeric value as claim C3 words it: the four digit characters parsed
as a decimal number, with a decimal point inserted at character index
`min d 3` when `d > 0`. -/
def specDecimalValue (c1 c2 c3 c4 d : Nat) : ℚ :=
  let N : Nat := (c1 - 0x30) * 1000 + (c2 - 0x30) * 100 + (c3 - 0x30) * 10 + (c4 - 0x30)
  if d = 0 then (N : ℚ) else (N : ℚ) / (10 : ℚ) ^ (4 - min d 3)

/-- The fixed order of status tags named by claim C10 (`"%"` is the
source's string for the Percent tag). -/
def statusOrder : List String :=
  ["BPN", "HOLD", "REL", "AC", "DC", "AUTO", "BATT", "APO", "MIN", "MAX",
   "%", "Diode", "Continuity"]

/-- Characters that can occur in a string accepted by Python's `float`:
digits, signs, the decimal point, the exponent markers, the underscore,
the letters of `inf`/`infinity`/`nan` in either case, and whitespace. -/
def inFloatAlphabet (c : Nat) : Bool :=
  isDigitC c || isPySpace c ||
  decide (c = 0x2B ∨ c = 0x2D ∨ c = 0x2E ∨ c = 0x5F ∨ c = 0x65 ∨ c = 0x45 ∨
          c = 0x69 ∨ c = 0x6E ∨ c = 0x66 ∨ c = 0x74 ∨ c = 0x79 ∨ c = 0x61 ∨
          c = 0x49 ∨ c = 0x4E ∨ c = 0x46 ∨ c = 0x54 ∨ c = 0x59 ∨ c = 0x41)

/-- Decimal value of a digit-character list (most significant first). -/
def natOfDigits (ds : List Nat) : Nat :=
  ds.foldl (fun a c => a * 10 + (c - 0x30)) 0

/-! Concrete frames used as witnesses and counterexamples. -/

/-- A normal frame: sign `'+'`, digits `'1234'`, decimal position `'0'`,
status byte 1 = 0x08 (AC), status byte 4 = 0x80 (Volt). -/
def frameNormal : List Nat :=
  [0x2B, 0x31, 0x32, 0x33, 0x34, 0x3A, 0x30, 0x08, 0x00, 0x00, 0x80, 0x00, 0x0D, 0x0A]

/-- An over-range frame: digits `'?0:?'`, decimal position `'0'`. -/
def frameOverrange : List Nat :=
  [0x2B, 0x3F, 0x30, 0x3A, 0x3F, 0x3A, 0x30, 0x00, 0x00, 0x00, 0x00, 0x00, 0x0D, 0x0A]

/-- An over-range digit pattern with a non-digit decimal-position byte
`'A'` (0x41). -/
def frameOverrangeBadPos : List Nat :=
  [0x2B, 0x3F, 0x30, 0x3A, 0x3F, 0x3A, 0x41, 0x00, 0x00, 0x00, 0x00, 0x00, 0x0D, 0x0A]

/-- A Farad frame with the nano override: status byte 2 = 0x02 (bit 1),
status byte 3 = 0x20 (kilo), status byte 4 = 0x04 (Farad). -/
def frameFarad : List Nat :=
  [0x2B, 0x31, 0x32, 0x33, 0x34, 0x3A, 0x30, 0x00, 0x02, 0x20, 0x04, 0x00, 0x0D, 0x0A]

/-- A kilo-Ohm frame: status byte 1 bits 2 and 5 (REL, AUTO), status
byte 3 bit 5 (kilo), status byte 4 bit 5 (Ohm). -/
def frameKiloOhm : List Nat :=
  [0x2B, 0x31, 0x32, 0x33, 0x34, 0x3A, 0x30, 0x24, 0x00, 0x20, 0x20, 0x00, 0x0D, 0x0A]

/-- A frame whose digit bytes are `'+123'`: not four decimal digits, yet
accepted by Python's `float`. -/
def framePlusDigits : List Nat :=
  [0x2B, 0x2B, 0x31, 0x32, 0x33, 0x3A, 0x30, 0x00, 0x00, 0x00, 0x00, 0x00, 0x0D, 0x0A]

/-- A frame whose digit bytes are `'123|'` (`'|'` = 0x7C is outside the
float alphabet). -/
def frameBarDigits : List Nat :=
  [0x2B, 0x31, 0x32, 0x33, 0x7C, 0x3A, 0x30, 0x00, 0x00, 0x00, 0x00, 0x00, 0x0D, 0x0A]

/-- A ten-byte input (wrong length). -/
def frameShort : List Nat := [0x2B, 0x31, 0x32, 0x33, 0x34, 0x3A, 0x30, 0x08, 0x00, 0x00]

/-- `frameNormal` with different reserved byte 5, bar-graph byte 11 and
terminator bytes 12–13. -/
def frameNormalAlt : List Nat :=
  [0x2B, 0x31, 0x32, 0x33, 0x34, 0xFF, 0x30, 0x08, 0x00, 0x00, 0x80, 0x55, 0xAA, 0x00]

/-- A frame with every documented status bit set: status bytes 1–3 have
bits 0–5, 2–5 and 1–3 set respectively. -/
def frameAllStatus : List Nat :=
  [0x2B, 0x31, 0x32, 0x33, 0x34, 0x3A, 0x30, 0x3F, 0x3C, 0x0E, 0x80, 0x00, 0x0D, 0x0A]

/-- The Reading produced by `frameNormal`. -/
def readingNormal : Reading := ⟨[0x2B], .num 1234, "", some "V", ["AC"]⟩

/-- The Reading produced by `frameOverrange`. -/
def readingOverrange : Reading := ⟨[], .OL, "", none, []⟩

/-- The Reading produced by `frameFarad`. -/
def readingFarad : Reading := ⟨[0x2B], .num 1234, "n", some "F", []⟩

/-- The Reading produced by `frameKiloOhm`. -/
def readingKiloOhm : Reading := ⟨[0x2B], .num 1234, "k", some "Ω", ["REL", "AUTO"]⟩

/-- The Reading produced by `framePlusDigits`. -/
def readingPlusDigits : Reading := ⟨[0x2B], .num 123, "", none, []⟩

/-- The Reading produced by `frameAllStatus`. -/
def readingAllStatus : Reading := ⟨[0x2B], .num 1234, "", some "V", statusOrder⟩

/-- Scenario A of the spec: digits `'1234'` with decimal position `'2'`,
status byte 1 = 0x08 (AC), status byte 4 = 0x80 (Volt). -/
def frameDecimal : List Nat :=
  [0x2B, 0x31, 0x32, 0x33, 0x34, 0x3A, 0x32, 0x08, 0x00, 0x00, 0x80, 0x00, 0x0D, 0x0A]

/-- The Reading produced by `frameDecimal` (value 12.34). -/
def readingDecimal : Reading := ⟨[0x2B], .num (1234 / 100), "", some "V", ["AC"]⟩

/-! General lemmas about the decoder. -/

theorem length_succ_shape {l : List Nat} {n : Nat} (h : l.length = n + 1) :
    ∃ b t, l = b :: t ∧ t.length = n := by
  cases l with
  | nil => cases h
  | cons b t => exact ⟨b, t, rfl, by simpa using h⟩

theorem eq_cons14 (l : List Nat) (h : l.length = 14) :
    ∃ a0 a1 a2 a3 a4 a5 a6 a7 a8 a9 a10 a11 a12 a13 : Nat,
      l = [a0, a1, a2, a3, a4, a5, a6, a7, a8, a9, a10, a11, a12, a13] := by
  obtain ⟨x0, l0, rfl, h0⟩ := length_succ_shape h
  obtain ⟨x1, l1, rfl, h1⟩ := length_succ_shape h0
  obtain ⟨x2, l2, rfl, h2⟩ := length_succ_shape h1
  obtain ⟨x3, l3, rfl, h3⟩ := length_succ_shape h2
  obtain ⟨x4, l4, rfl, h4⟩ := length_succ_shape h3
  obtain ⟨x5, l5, rfl, h5⟩ := length_succ_shape h4
  obtain ⟨x6, l6, rfl, h6⟩ := length_succ_shape h5
  obtain ⟨x7, l7, rfl, h7⟩ := length_succ_shape h6
  obtain ⟨x8, l8, rfl, h8⟩ := length_succ_shape h7
  obtain ⟨x9, l9, rfl, h9⟩ := length_succ_shape h8
  obtain ⟨x10, l10, rfl, h10⟩ := length_succ_shape h9
  obtain ⟨x11, l11, rfl, h11⟩ := length_succ_shape h10
  obtain ⟨x12, l12, rfl, h12⟩ := length_succ_shape h11
  obtain ⟨x13, l13, rfl, h13⟩ := length_succ_shape h12
  rw [List.length_eq_zero] at h13
  subst h13
  exact ⟨x0, x1, x2, x3, x4, x5, x6, x7, x8, x9, x10, x11, x12, x13, rfl⟩

theorem decode_ok_inv {l : List Nat} {r : Reading} (h : decode l = .ok r) :
    r.mode = modeOf (l.getD 10 0) ∧
    r.status = statusOf (l.getD 7 0) (l.getD 8 0) (l.getD 9 0) ∧
    r.unit = (if modeOf (l.getD 10 0) = some "F" then
        (if (l.getD 8 0) &&& 2 ^ 1 ≠ 0 then "n" else unitOf (l.getD 9 0))
      else unitOf (l.getD 9 0)) := by
  simp only [decode] at h
  split at h
  · simp at h
  split at h
  · simp at h
  split at h
  · simp at h
  split at h
  · cases h
    simp
  split at h
  · simp at h
  · cases h
    simp

theorem unitOf_ne_n (b : Nat) : unitOf b ≠ "n" := by
  simp only [unitOf]
  split
  · simp
  split
  · simp
  split
  · simp
  split <;> simp

set_option maxRecDepth 100000 in
theorem modeOf_eq_highest : ∀ b < 256, modeOf b = modeHighestBit b := by decide

set_option maxRecDepth 100000 in
theorem unitOf_eq_highest : ∀ b < 256, unitOf b = unitHighestBit b := by decide

theorem mem_ite_singleton {α : Type} {c : Prop} [Decidable c] {a b : α} :
    a ∈ (if c then [b] else []) ↔ c ∧ a = b := by
  split <;> simp_all

theorem ite_singleton_append_sublist {α : Type} {c : Prop} [Decidable c] (a : α)
    {l L : List α} (h : l.Sublist L) :
    ((if c then [a] else []) ++ l).Sublist (a :: L) := by
  split
  · exact h.cons₂ a
  · exact h.cons a

theorem ite_singleton_sublist {α : Type} {c : Prop} [Decidable c] (a : α) :
    (if c then [a] else []).Sublist [a] := by
  split
  · exact List.Sublist.refl _
  · exact List.nil_sublist _

theorem statusOf_sublist (s1 s2 s3 : Nat) : (statusOf s1 s2 s3).Sublist statusOrder := by
  simp only [statusOf, statusOrder, List.append_assoc]
  refine ite_singleton_append_sublist _ ?_
  refine ite_singleton_append_sublist _ ?_
  refine ite_singleton_append_sublist _ ?_
  refine ite_singleton_append_sublist _ ?_
  refine ite_singleton_append_sublist _ ?_
  refine ite_singleton_append_sublist _ ?_
  refine ite_singleton_append_sublist _ ?_
  refine ite_singleton_append_sublist _ ?_
  refine ite_singleton_append_sublist _ ?_
  refine ite_singleton_append_sublist _ ?_
  refine ite_singleton_append_sublist _ ?_
  refine ite_singleton_append_sublist _ ?_
  exact ite_singleton_sublist _

theorem statusOrder_nodup : statusOrder.Nodup := by decide

/-! Claim theorems. -/

/-- Claim C2: for every 14-byte frame, the decoded unit is nano (`"n"`)
exactly when the decoded mode is Farad (`"F"`) and bit 1 of status byte 2
(frame byte 8) is set; for every frame whose decoded mode is not Farad,
bit 1 of status byte 2 has no effect on the unit, which is exactly the
unit computed from status byte 3. -/
theorem claim_C2 (l : List Nat) (r : Reading) (_h14 : l.length = 14)
    (h : decode l = .ok r) :
    (r.unit = "n" ↔ (r.mode = some "F" ∧ (l.getD 8 0) &&& 2 ^ 1 ≠ 0)) ∧
    (r.mode ≠ some "F" → r.unit = unitOf (l.getD 9 0)) := by
  obtain ⟨hmode, -, hunit⟩ := decode_ok_inv h
  constructor
  · rw [hunit, hmode]
    split
    · next hF =>
      split
      · next hbit => exact iff_of_true rfl ⟨hF, hbit⟩
      · next hbit => exact iff_of_false (unitOf_ne_n _) (fun hc => hbit hc.2)
    · next hF => exact iff_of_false (unitOf_ne_n _) (fun hc => hF hc.1)
  · intro hm
    rw [hunit, if_neg (hmode ▸ hm)]

theorem claim_C2_witness :
    (readingFarad.unit = "n" ↔
      (readingFarad.mode = some "F" ∧ (frameFarad.getD 8 0) &&& 2 ^ 1 ≠ 0)) ∧
    (readingFarad.mode ≠ some "F" → readingFarad.unit = unitOf (frameFarad.getD 9 0)) :=
  claim_C2 frameFarad readingFarad (by decide) (by decide)

/-- Claim C4: the decoded mode is determined solely by status byte 4
(frame byte 10): none if no bit is set, otherwise the mode of the
highest-indexed set bit. -/
theorem claim_C4 (l : List Nat) (r : Reading) (_h14 : l.length = 14)
    (hb : l.getD 10 0 < 256) (h : decode l = .ok r) :
    r.mode = modeHighestBit (l.getD 10 0) := by
  rw [(decode_ok_inv h).1]
  exact modeOf_eq_highest _ hb

theorem claim_C4_witness :
    readingNormal.mode = modeHighestBit (frameNormal.getD 10 0) :=
  claim_C4 frameNormal readingNormal (by decide) (by decide) (by decide)

/-- Claim C5: for frames whose decoded mode is not Farad, the decoded
unit is determined solely by bits 4-7 of status byte 3 (frame byte 9):
none if all four are clear, otherwise the tag of the highest set bit. -/
theorem claim_C5 (l : List Nat) (r : Reading) (_h14 : l.length = 14)
    (hb : l.getD 9 0 < 256) (h : decode l = .ok r) (hm : r.mode ≠ some "F") :
    r.unit = unitHighestBit (l.getD 9 0) := by
  obtain ⟨hmode, -, hunit⟩ := decode_ok_inv h
  rw [hunit, if_neg (hmode ▸ hm)]
  exact unitOf_eq_highest _ hb

theorem claim_C5_witness :
    readingKiloOhm.unit = unitHighestBit (frameKiloOhm.getD 9 0) :=
  claim_C5 frameKiloOhm readingKiloOhm (by decide) (by decide) (by decide) (by decide)

/-- Claim C6: every input whose length differs from 14 fails with the
wrong-length error carrying just that length (no other byte influences
the error), and no input of length 14 ever produces a wrong-length
error. -/
theorem claim_C6 (l1 l2 : List Nat) (n : Nat) (h1 : l1.length ≠ 14)
    (h2 : l2.length = 14) :
    decode l1 = .error (.wrongLength l1.length) ∧
    decode l2 ≠ .error (.wrongLength n) := by
  constructor
  · simp [decode, h1]
  · simp only [decode, if_neg (by simp [h2] : ¬l2.length ≠ 14)]
    split
    · simp
    split
    · simp
    split
    · simp
    split
    · simp
    · simp

theorem claim_C6_witness :
    decode frameShort = .error (.wrongLength frameShort.length) ∧
    decode frameNormal ≠ .error (.wrongLength 14) :=
  claim_C6 frameShort frameNormal 14 (by decide) (by decide)

/-- Claim C8: decode is total on 14-byte inputs: the result is a Reading
or one of the non-length decode errors; no other outcome (in particular
no uncaught failure) is possible, and the function is pure. -/
theorem claim_C8 (l : List Nat) (h : l.length = 14) :
    (decode l).isOk = true ∨ decode l = .error .invalidDigitBytes ∨
    decode l = .error .invalidDecimalPosition ∨ decode l = .error .invalidDigits := by
  simp only [decode, if_neg (by simp [h] : ¬l.length ≠ 14)]
  split
  · simp
  split
  · simp
  split
  · simp [Except.isOk, Except.toBool]
  split
  · simp
  · simp [Except.isOk, Except.toBool]

theorem claim_C8_witness :
    (decode frameNormal).isOk = true ∨ decode frameNormal = .error .invalidDigitBytes ∨
    decode frameNormal = .error .invalidDecimalPosition ∨
    decode frameNormal = .error .invalidDigits :=
  claim_C8 frameNormal (by decide)

/-- Claim C9: bytes 5, 11, 12 and 13 of a 14-byte frame do not influence
the decode result: two frames agreeing on all other bytes decode
identically. -/
theorem claim_C9 (l1 l2 : List Nat) (h1 : l1.length = 14) (h2 : l2.length = 14)
    (e0 : l1.getD 0 0 = l2.getD 0 0) (e1 : l1.getD 1 0 = l2.getD 1 0)
    (e2 : l1.getD 2 0 = l2.getD 2 0) (e3 : l1.getD 3 0 = l2.getD 3 0)
    (e4 : l1.getD 4 0 = l2.getD 4 0) (e6 : l1.getD 6 0 = l2.getD 6 0)
    (e7 : l1.getD 7 0 = l2.getD 7 0) (e8 : l1.getD 8 0 = l2.getD 8 0)
    (e9 : l1.getD 9 0 = l2.getD 9 0) (e10 : l1.getD 10 0 = l2.getD 10 0) :
    decode l1 = decode l2 := by
  obtain ⟨a0, a1, a2, a3, a4, a5, a6, a7, a8, a9, a10, a11, a12, a13, rfl⟩ := eq_cons14 l1 h1
  obtain ⟨b0, b1, b2, b3, b4, b5, b6, b7, b8, b9, b10, b11, b12, b13, rfl⟩ := eq_cons14 l2 h2
  simp only [List.getD_cons_zero, List.getD_cons_succ] at e0 e1 e2 e3 e4 e6 e7 e8 e9 e10
  subst e0 e1 e2 e3 e4 e6 e7 e8 e9 e10
  rfl

theorem claim_C9_witness : decode frameNormal = decode frameNormalAlt :=
  claim_C9 frameNormal frameNormalAlt (by decide) (by decide) (by decide) (by decide)
    (by decide) (by decide) (by decide) (by decide) (by decide) (by decide)
    (by decide) (by decide)

/-- Claim C10: the status list of a successful decode has no duplicates,
is ordered per the fixed tag order, and contains a tag exactly when its
documented bit is set; no other bit contributes a tag. -/
theorem claim_C10 (l : List Nat) (r : Reading) (_h14 : l.length = 14)
    (h : decode l = .ok r) :
    r.status.Nodup ∧ r.status.Sublist statusOrder ∧
    ("BPN" ∈ r.status ↔ (l.getD 7 0) &&& 2 ^ 0 ≠ 0) ∧
    ("HOLD" ∈ r.status ↔ (l.getD 7 0) &&& 2 ^ 1 ≠ 0) ∧
    ("REL" ∈ r.status ↔ (l.getD 7 0) &&& 2 ^ 2 ≠ 0) ∧
    ("AC" ∈ r.status ↔ (l.getD 7 0) &&& 2 ^ 3 ≠ 0) ∧
    ("DC" ∈ r.status ↔ (l.getD 7 0) &&& 2 ^ 4 ≠ 0) ∧
    ("AUTO" ∈ r.status ↔ (l.getD 7 0) &&& 2 ^ 5 ≠ 0) ∧
    ("BATT" ∈ r.status ↔ (l.getD 8 0) &&& 2 ^ 2 ≠ 0) ∧
    ("APO" ∈ r.status ↔ (l.getD 8 0) &&& 2 ^ 3 ≠ 0) ∧
    ("MIN" ∈ r.status ↔ (l.getD 8 0) &&& 2 ^ 4 ≠ 0) ∧
    ("MAX" ∈ r.status ↔ (l.getD 8 0) &&& 2 ^ 5 ≠ 0) ∧
    ("%" ∈ r.status ↔ (l.getD 9 0) &&& 2 ^ 1 ≠ 0) ∧
    ("Diode" ∈ r.status ↔ (l.getD 9 0) &&& 2 ^ 2 ≠ 0) ∧
    ("Continuity" ∈ r.status ↔ (l.getD 9 0) &&& 2 ^ 3 ≠ 0) := by
  obtain ⟨-, hst, -⟩ := decode_ok_inv h
  rw [hst]
  refine ⟨(statusOf_sublist _ _ _).nodup statusOrder_nodup, statusOf_sublist _ _ _,
    ?_, ?_, ?_, ?_, ?_, ?_, ?_, ?_, ?_, ?_, ?_, ?_, ?_⟩
  all_goals simp [statusOf, mem_ite_singleton]

theorem claim_C10_witness :
    readingAllStatus.status.Nodup ∧ readingAllStatus.status.Sublist statusOrder ∧
    ("BPN" ∈ readingAllStatus.status ↔ (frameAllStatus.getD 7 0) &&& 2 ^ 0 ≠ 0) ∧
    ("HOLD" ∈ readingAllStatus.status ↔ (frameAllStatus.getD 7 0) &&& 2 ^ 1 ≠ 0) ∧
    ("REL" ∈ readingAllStatus.status ↔ (frameAllStatus.getD 7 0) &&& 2 ^ 2 ≠ 0) ∧
    ("AC" ∈ readingAllStatus.status ↔ (frameAllStatus.getD 7 0) &&& 2 ^ 3 ≠ 0) ∧
    ("DC" ∈ readingAllStatus.status ↔ (frameAllStatus.getD 7 0) &&& 2 ^ 4 ≠ 0) ∧
    ("AUTO" ∈ readingAllStatus.status ↔ (frameAllStatus.getD 7 0) &&& 2 ^ 5 ≠ 0) ∧
    ("BATT" ∈ readingAllStatus.status ↔ (frameAllStatus.getD 8 0) &&& 2 ^ 2 ≠ 0) ∧
    ("APO" ∈ readingAllStatus.status ↔ (frameAllStatus.getD 8 0) &&& 2 ^ 3 ≠ 0) ∧
    ("MIN" ∈ readingAllStatus.status ↔ (frameAllStatus.getD 8 0) &&& 2 ^ 4 ≠ 0) ∧
    ("MAX" ∈ readingAllStatus.status ↔ (frameAllStatus.getD 8 0) &&& 2 ^ 5 ≠ 0) ∧
    ("%" ∈ readingAllStatus.status ↔ (frameAllStatus.getD 9 0) &&& 2 ^ 1 ≠ 0) ∧
    ("Diode" ∈ readingAllStatus.status ↔ (frameAllStatus.getD 9 0) &&& 2 ^ 2 ≠ 0) ∧
    ("Continuity" ∈ readingAllStatus.status ↔ (frameAllStatus.getD 9 0) &&& 2 ^ 3 ≠ 0) :=
  claim_C10 frameAllStatus readingAllStatus (by decide) (by decide)

theorem pyFloat_ne_OL {s : List Nat} {v : Value} (h : pyFloat s = some v) : v ≠ .OL := by
  simp only [pyFloat] at h
  split at h
  · cases h; simp
  split at h
  · cases h; simp
  split at h
  · split at h
    · cases h; simp
    · cases h
  · cases h

/-- Claim C1 (amended): for every 14-byte frame whose decimal-position
byte (byte 6) is an ASCII digit, the value is the over-range sentinel OL
if and only if the digit bytes 1-4 decode to the 4-character string
`?0:?`; whenever the value is OL the sign is empty regardless of the wire
sign byte; and for sentinel digit bytes decoding succeeds regardless of
the sign byte and of which ASCII digit the decimal-position byte holds.
(The original claim, with an arbitrary decimal-position byte, is refuted
by `counterexample_C1`: the source parses byte 6 before the sentinel
check.) -/
theorem claim_C1 (l : List Nat) (r : Reading) (_h14 : l.length = 14)
    (h6lo : 0x30 ≤ l.getD 6 0) (h6hi : l.getD 6 0 ≤ 0x39) :
    (decode l = .ok r →
      (r.value = .OL ↔ utf8Decode ((l.drop 1).take 4) = some overrangeSentinel)) ∧
    (decode l = .ok r → r.value = .OL → r.sign = []) ∧
    (utf8Decode ((l.drop 1).take 4) = some overrangeSentinel →
      (decode l).isOk = true) := by
  have hdp : parseDecPos (l.getD 6 0) = some (l.getD 6 0 - 0x30) := by
    unfold parseDecPos
    exact if_pos ⟨h6lo, h6hi⟩
  simp only [decode, if_neg (by simp [_h14] : ¬l.length ≠ 14), hdp]
  cases hu : utf8Decode ((l.drop 1).take 4) with
  | none =>
    exact ⟨fun h => absurd h (by simp), fun h => absurd h (by simp),
      fun h => Option.noConfusion h⟩
  | some digits =>
    by_cases hs : digits = overrangeSentinel
    · subst hs
      simp only [if_pos rfl]
      refine ⟨fun h => ?_, fun h => ?_, fun _ => ?_⟩
      · cases h
        simp
      · cases h
        simp
      · simp [Except.isOk, Except.toBool]
    · simp only [if_neg hs]
      cases hf : pyFloat (if l.getD 6 0 - 0x30 > 0 then
          pyInsert digits (min (l.getD 6 0 - 0x30) 3) 0x2E else digits) with
      | none =>
        exact ⟨fun h => absurd h (by simp), fun h => absurd h (by simp),
          fun h => absurd (Option.some.inj h) hs⟩
      | some v =>
        refine ⟨fun h => ?_, fun h => ?_, fun h => absurd (Option.some.inj h) hs⟩
        · cases h
          exact iff_of_false (by simpa using pyFloat_ne_OL hf)
            (fun hc => hs (Option.some.inj hc))
        · cases h
          intro hOL
          exact absurd (by simpa using hOL) (pyFloat_ne_OL hf)

theorem counterexample_C1 :
    decode frameOverrangeBadPos = .error .invalidDecimalPosition := by decide

theorem claim_C1_witness :
    (decode frameOverrange = .ok readingOverrange →
      (readingOverrange.value = .OL ↔
        utf8Decode ((frameOverrange.drop 1).take 4) = some overrangeSentinel)) ∧
    (decode frameOverrange = .ok readingOverrange → readingOverrange.value = .OL →
      readingOverrange.sign = []) ∧
    (utf8Decode ((frameOverrange.drop 1).take 4) = some overrangeSentinel →
      (decode frameOverrange).isOk = true) :=
  claim_C1 frameOverrange readingOverrange (by decide) (by decide) (by decide)

theorem utf8DecodeCp_ascii {b1 : Nat} (t1 : List Nat) (h : b1 < 0x80) :
    utf8DecodeCp b1 t1 = some (b1, t1) := by
  simp only [utf8DecodeCp, if_pos h]

theorem utf8DecodeGo_ascii : ∀ (fuel : Nat) {l : List Nat}, l.length ≤ fuel →
    (∀ c ∈ l, c < 0x80) → utf8DecodeGo fuel l = some l := by
  intro fuel
  induction fuel with
  | zero =>
    intro l hlen _
    cases l with
    | nil => rfl
    | cons c m => simp at hlen
  | succ n ih =>
    intro l hlen h
    cases l with
    | nil => rfl
    | cons c m =>
      rw [utf8DecodeGo, utf8DecodeCp_ascii m (h c (List.mem_cons_self c m))]
      have hm : utf8DecodeGo n m = some m :=
        ih (by simp at hlen; omega) (fun x hx => h x (List.mem_cons_of_mem c hx))
      simp [hm]

theorem utf8Decode_ascii {l : List Nat} (h : ∀ c ∈ l, c < 0x80) :
    utf8Decode l = some l :=
  utf8DecodeGo_ascii l.length (Nat.le_refl _) h

theorem dropWhile_all_false {p : Nat → Bool} : ∀ {l : List Nat},
    (∀ c ∈ l, p c = false) → l.dropWhile p = l := by
  intro l h
  cases l with
  | nil => rfl
  | cons c m =>
    simp only [List.dropWhile_cons, h c (List.mem_cons_self c m)]
    simp

theorem stripPySpaces_id {s : List Nat} (h : ∀ c ∈ s, isPySpace c = false) :
    stripPySpaces s = s := by
  unfold stripPySpaces
  rw [dropWhile_all_false h,
    dropWhile_all_false (fun c hc => h c (List.mem_reverse.mp hc)), List.reverse_reverse]

theorem pySplitSign_of_ne {c : Nat} {l : List Nat} (h1 : c ≠ 0x2B) (h2 : c ≠ 0x2D) :
    pySplitSign (c :: l) = (false, c :: l) := by
  unfold pySplitSign
  split
  · next heq => injection heq with ha hb; exact absurd ha h1
  · next heq => injection heq with ha hb; exact absurd ha h2
  · rfl

theorem lowerAscii_of_lt {d : Nat} (h : d < 0x41) : lowerAscii d = d := by
  unfold lowerAscii
  rw [if_neg]
  omega

theorem digitsCore_append (ds : List Nat) (rest : List Nat) (acc cnt : Nat)
    (hd : ∀ c ∈ ds, isDigitC c = true)
    (hrest : match rest with | [] => True | c :: _ => isDigitC c = false ∧ c ≠ 0x5F) :
    digitsCore acc cnt (ds ++ rest) =
      (ds.foldl (fun a c => a * 10 + (c - 0x30)) acc, cnt + ds.length, rest) := by
  induction ds generalizing acc cnt with
  | nil =>
    simp only [List.nil_append, List.foldl_nil, List.length_nil, Nat.add_zero]
    cases rest with
    | nil => rfl
    | cons c m =>
      obtain ⟨hc1, hc2⟩ := hrest
      rw [digitsCore.eq_def]
      simp [hc1, hc2]
  | cons d ds ih =>
    have hdd : isDigitC d = true := hd d (by simp)
    rw [List.cons_append, digitsCore.eq_def]
    simp only [hdd, if_true]
    rw [ih _ _ (fun c hc => hd c (List.mem_cons_of_mem d hc))]
    simp only [List.foldl_cons, List.length_cons, Prod.mk.injEq]
    exact ⟨trivial, by omega, trivial⟩

theorem parseDigitPart?_append (d : Nat) (ds rest : List Nat)
    (hd : ∀ c ∈ d :: ds, isDigitC c = true)
    (hrest : match rest with | [] => True | c :: _ => isDigitC c = false ∧ c ≠ 0x5F) :
    parseDigitPart? ((d :: ds) ++ rest) =
      some (natOfDigits (d :: ds), (d :: ds).length, rest) := by
  rw [List.cons_append, parseDigitPart?, if_pos (hd d (by simp)), ← List.cons_append,
    digitsCore_append _ _ _ _ hd hrest]
  simp [natOfDigits]

theorem isPySpace_of_digit {c : Nat} (h : isDigitC c = true) : isPySpace c = false := by
  simp [isDigitC] at h
  simp [isPySpace]
  omega

theorem digit_bounds {c : Nat} (h : isDigitC c = true) : 0x30 ≤ c ∧ c ≤ 0x39 := by
  simpa [isDigitC] using h

theorem parseMantissa_digits (d : Nat) (ds : List Nat)
    (h : ∀ c ∈ d :: ds, isDigitC c = true) :
    parseMantissa (d :: ds) = some ((natOfDigits (d :: ds) : ℚ), []) := by
  have hp : parseDigitPart? (d :: ds) = some (natOfDigits (d :: ds), (d :: ds).length, []) := by
    simpa using parseDigitPart?_append d ds [] h trivial
  simp only [parseMantissa, hp]

theorem parseMantissa_digits_dot (d1 : Nat) (ds1 : List Nat) (d2 : Nat) (ds2 : List Nat)
    (h1 : ∀ c ∈ d1 :: ds1, isDigitC c = true) (h2 : ∀ c ∈ d2 :: ds2, isDigitC c = true) :
    parseMantissa ((d1 :: ds1) ++ 0x2E :: d2 :: ds2) =
      some (((natOfDigits (d1 :: ds1) * 10 ^ (d2 :: ds2).length +
          natOfDigits (d2 :: ds2) : Nat) : ℚ) / (10 : ℚ) ^ (d2 :: ds2).length, []) := by
  have hp1 := parseDigitPart?_append d1 ds1 (0x2E :: d2 :: ds2) h1 ⟨by decide, by decide⟩
  have hp2 : parseDigitPart? (d2 :: ds2) =
      some (natOfDigits (d2 :: ds2), (d2 :: ds2).length, []) := by
    simpa using parseDigitPart?_append d2 ds2 [] h2 trivial
  simp only [parseMantissa, hp1, hp2]
  simp

theorem pyFloat_digits (d : Nat) (ds : List Nat)
    (h : ∀ c ∈ d :: ds, isDigitC c = true) :
    pyFloat (d :: ds) = some (.num ((natOfDigits (d :: ds) : ℚ))) := by
  have hb := digit_bounds (h d (by simp))
  have hsp : ∀ c ∈ d :: ds, isPySpace c = false := fun c hc => isPySpace_of_digit (h c hc)
  have hss : pySplitSign (d :: ds) = (false, d :: ds) :=
    pySplitSign_of_ne (by omega) (by omega)
  have hninf : ¬(List.map lowerAscii (d :: ds) = [0x69, 0x6E, 0x66] ∨
      List.map lowerAscii (d :: ds) = [0x69, 0x6E, 0x66, 0x69, 0x6E, 0x69, 0x74, 0x79]) := by
    rintro (hlu | hlu) <;>
      (rw [List.map_cons, lowerAscii_of_lt (by omega)] at hlu; injection hlu with ha _; omega)
  have hnnan : ¬(List.map lowerAscii (d :: ds) = [0x6E, 0x61, 0x6E]) := by
    intro hlu
    rw [List.map_cons, lowerAscii_of_lt (by omega)] at hlu
    injection hlu with ha _
    omega
  simp only [pyFloat, stripPySpaces_id hsp, hss]
  rw [if_neg hninf, if_neg hnnan, parseMantissa_digits d ds h]
  simp [parseExp]

theorem pyFloat_digits_dot (d1 : Nat) (ds1 : List Nat) (d2 : Nat) (ds2 : List Nat)
    (h1 : ∀ c ∈ d1 :: ds1, isDigitC c = true) (h2 : ∀ c ∈ d2 :: ds2, isDigitC c = true) :
    pyFloat ((d1 :: ds1) ++ 0x2E :: d2 :: ds2) =
      some (.num (((natOfDigits (d1 :: ds1) * 10 ^ (d2 :: ds2).length +
          natOfDigits (d2 :: ds2) : Nat) : ℚ) / (10 : ℚ) ^ (d2 :: ds2).length)) := by
  have hb := digit_bounds (h1 d1 (by simp))
  have hsp : ∀ c ∈ d1 :: (ds1 ++ 0x2E :: d2 :: ds2), isPySpace c = false := by
    intro c hc
    rcases List.mem_append.mp (List.cons_append d1 ds1 _ ▸ hc) with hc1 | hc2
    · exact isPySpace_of_digit (h1 c hc1)
    · rcases List.mem_cons.mp hc2 with hdot | hc3
      · subst hdot; decide
      · exact isPySpace_of_digit (h2 c hc3)
  have hss : pySplitSign (d1 :: (ds1 ++ 0x2E :: d2 :: ds2)) =
      (false, d1 :: (ds1 ++ 0x2E :: d2 :: ds2)) :=
    pySplitSign_of_ne (by omega) (by omega)
  have hninf : ¬(List.map lowerAscii (d1 :: (ds1 ++ 0x2E :: d2 :: ds2)) = [0x69, 0x6E, 0x66] ∨
      List.map lowerAscii (d1 :: (ds1 ++ 0x2E :: d2 :: ds2)) =
        [0x69, 0x6E, 0x66, 0x69, 0x6E, 0x69, 0x74, 0x79]) := by
    rintro (hlu | hlu) <;>
      (rw [List.map_cons, lowerAscii_of_lt (by omega)] at hlu; injection hlu with ha _; omega)
  have hnnan : ¬(List.map lowerAscii (d1 :: (ds1 ++ 0x2E :: d2 :: ds2)) =
      [0x6E, 0x61, 0x6E]) := by
    intro hlu
    rw [List.map_cons, lowerAscii_of_lt (by omega)] at hlu
    injection hlu with ha _
    omega
  rw [List.cons_append]
  simp only [pyFloat, stripPySpaces_id hsp, hss]
  rw [if_neg hninf, if_neg hnnan, ← List.cons_append,
    parseMantissa_digits_dot d1 ds1 d2 ds2 h1 h2]
  simp [parseExp]

set_option maxRecDepth 4000 in
set_option maxHeartbeats 4000000 in
/-- Claim C3: for every 14-byte frame whose digit bytes are four ASCII
decimal digits and whose decimal-position byte (byte 6) is an ASCII digit
of value d, decoding succeeds and the value is the four digits parsed as
a decimal number, with a decimal point inserted at character index
`min d 3` when `d > 0` (so digits `1234` with d = 2 give 12.34). -/
theorem claim_C3 (l : List Nat) (r : Reading) (h14 : l.length = 14)
    (hd1 : isDigitC (l.getD 1 0) = true) (hd2 : isDigitC (l.getD 2 0) = true)
    (hd3 : isDigitC (l.getD 3 0) = true) (hd4 : isDigitC (l.getD 4 0) = true)
    (hd6 : isDigitC (l.getD 6 0) = true) :
    (decode l).isOk = true ∧
    (decode l = .ok r → r.value = .num (specDecimalValue (l.getD 1 0) (l.getD 2 0)
      (l.getD 3 0) (l.getD 4 0) (l.getD 6 0 - 0x30))) := by
  obtain ⟨a0, a1, a2, a3, a4, a5, a6, a7, a8, a9, a10, a11, a12, a13, rfl⟩ := eq_cons14 l h14
  simp only [List.getD_cons_zero, List.getD_cons_succ] at hd1 hd2 hd3 hd4 hd6 ⊢
  obtain ⟨b1lo, b1hi⟩ := digit_bounds hd1
  obtain ⟨b2lo, b2hi⟩ := digit_bounds hd2
  obtain ⟨b3lo, b3hi⟩ := digit_bounds hd3
  obtain ⟨b4lo, b4hi⟩ := digit_bounds hd4
  obtain ⟨b6lo, b6hi⟩ := digit_bounds hd6
  have hasc : utf8Decode [a1, a2, a3, a4] = some [a1, a2, a3, a4] := by
    apply utf8Decode_ascii
    intro c hc
    simp at hc
    rcases hc with rfl | rfl | rfl | rfl <;> omega
  have hdp : parseDecPos a6 = some (a6 - 0x30) := by
    unfold parseDecPos
    exact if_pos ⟨b6lo, b6hi⟩
  have hs : ([a1, a2, a3, a4] : List Nat) ≠ overrangeSentinel := by
    intro hx
    rw [overrangeSentinel] at hx
    injection hx with hx1 _
    omega
  simp only [decode, List.length_cons, List.length_nil, List.drop_succ_cons, List.drop_zero,
    List.take_succ_cons, List.take_zero, hasc, if_neg hs, List.getD_cons_zero,
    List.getD_cons_succ, hdp]
  norm_num
  interval_cases a6
  · -- decimal position 0: no decimal point
    have hpf := pyFloat_digits a1 [a2, a3, a4]
      (by intro c hc; simp at hc; rcases hc with rfl | rfl | rfl | rfl <;> assumption)
    rw [if_neg (by norm_num), hpf]
    refine ⟨rfl, ?_⟩
    intro h
    injection h with h
    subst h
    simp only [specDecimalValue, natOfDigits, List.foldl]
    norm_num
    ring
  · -- decimal position 1: insert at index 1
    have hpf := pyFloat_digits_dot a1 [] a2 [a3, a4]
      (by intro c hc; simp at hc; subst hc; assumption)
      (by intro c hc; simp at hc; rcases hc with rfl | rfl | rfl <;> assumption)
    simp only [List.cons_append, List.nil_append, List.length_cons, List.length_nil] at hpf
    rw [if_pos (by norm_num), show pyInsert [a1, a2, a3, a4] (min (49 - 48) 3) 0x2E =
      [a1, 0x2E, a2, a3, a4] from rfl, hpf]
    refine ⟨rfl, ?_⟩
    intro h
    injection h with h
    subst h
    simp only [specDecimalValue, natOfDigits, List.foldl]
    norm_num
    ring
  · -- decimal position 2: insert at index 2
    have hpf := pyFloat_digits_dot a1 [a2] a3 [a4]
      (by intro c hc; simp at hc; rcases hc with rfl | rfl <;> assumption)
      (by intro c hc; simp at hc; rcases hc with rfl | rfl <;> assumption)
    simp only [List.cons_append, List.nil_append, List.length_cons, List.length_nil] at hpf
    rw [if_pos (by norm_num), show pyInsert [a1, a2, a3, a4] (min (50 - 48) 3) 0x2E =
      [a1, a2, 0x2E, a3, a4] from rfl, hpf]
    refine ⟨rfl, ?_⟩
    intro h
    injection h with h
    subst h
    simp only [specDecimalValue, natOfDigits, List.foldl]
    norm_num
    ring
  · -- decimal position 3: insert at index 3
    have hpf := pyFloat_digits_dot a1 [a2, a3] a4 []
      (by intro c hc; simp at hc; rcases hc with rfl | rfl | rfl <;> assumption)
      (by intro c hc; simp at hc; subst hc; assumption)
    simp only [List.cons_append, List.nil_append, List.length_cons, List.length_nil] at hpf
    rw [if_pos (by norm_num), show pyInsert [a1, a2, a3, a4] (min (51 - 48) 3) 0x2E =
      [a1, a2, a3, 0x2E, a4] from rfl, hpf]
    refine ⟨rfl, ?_⟩
    intro h
    injection h with h
    subst h
    simp only [specDecimalValue, natOfDigits, List.foldl]
    norm_num
    ring
  · -- decimal position 4: insert at index 3
    have hpf := pyFloat_digits_dot a1 [a2, a3] a4 []
      (by intro c hc; simp at hc; rcases hc with rfl | rfl | rfl <;> assumption)
      (by intro c hc; simp at hc; subst hc; assumption)
    simp only [List.cons_append, List.nil_append, List.length_cons, List.length_nil] at hpf
    rw [if_pos (by norm_num), show pyInsert [a1, a2, a3, a4] (min (52 - 48) 3) 0x2E =
      [a1, a2, a3, 0x2E, a4] from rfl, hpf]
    refine ⟨rfl, ?_⟩
    intro h
    injection h with h
    subst h
    simp only [specDecimalValue, natOfDigits, List.foldl]
    norm_num
    ring
  · -- decimal position 5: insert at index 3
    have hpf := pyFloat_digits_dot a1 [a2, a3] a4 []
      (by intro c hc; simp at hc; rcases hc with rfl | rfl | rfl <;> assumption)
      (by intro c hc; simp at hc; subst hc; assumption)
    simp only [List.cons_append, List.nil_append, List.length_cons, List.length_nil] at hpf
    rw [if_pos (by norm_num), show pyInsert [a1, a2, a3, a4] (min (53 - 48) 3) 0x2E =
      [a1, a2, a3, 0x2E, a4] from rfl, hpf]
    refine ⟨rfl, ?_⟩
    intro h
    injection h with h
    subst h
    simp only [specDecimalValue, natOfDigits, List.foldl]
    norm_num
    ring
  · -- decimal position 6: insert at index 3
    have hpf := pyFloat_digits_dot a1 [a2, a3] a4 []
      (by intro c hc; simp at hc; rcases hc with rfl | rfl | rfl <;> assumption)
      (by intro c hc; simp at hc; subst hc; assumption)
    simp only [List.cons_append, List.nil_append, List.length_cons, List.length_nil] at hpf
    rw [if_pos (by norm_num), show pyInsert [a1, a2, a3, a4] (min (54 - 48) 3) 0x2E =
      [a1, a2, a3, 0x2E, a4] from rfl, hpf]
    refine ⟨rfl, ?_⟩
    intro h
    injection h with h
    subst h
    simp only [specDecimalValue, natOfDigits, List.foldl]
    norm_num
    ring
  · -- decimal position 7: insert at index 3
    have hpf := pyFloat_digits_dot a1 [a2, a3] a4 []
      (by intro c hc; simp at hc; rcases hc with rfl | rfl | rfl <;> assumption)
      (by intro c hc; simp at hc; subst hc; assumption)
    simp only [List.cons_append, List.nil_append, List.length_cons, List.length_nil] at hpf
    rw [if_pos (by norm_num), show pyInsert [a1, a2, a3, a4] (min (55 - 48) 3) 0x2E =
      [a1, a2, a3, 0x2E, a4] from rfl, hpf]
    refine ⟨rfl, ?_⟩
    intro h
    injection h with h
    subst h
    simp only [specDecimalValue, natOfDigits, List.foldl]
    norm_num
    ring
  · -- decimal position 8: insert at index 3
    have hpf := pyFloat_digits_dot a1 [a2, a3] a4 []
      (by intro c hc; simp at hc; rcases hc with rfl | rfl | rfl <;> assumption)
      (by intro c hc; simp at hc; subst hc; assumption)
    simp only [List.cons_append, List.nil_append, List.length_cons, List.length_nil] at hpf
    rw [if_pos (by norm_num), show pyInsert [a1, a2, a3, a4] (min (56 - 48) 3) 0x2E =
      [a1, a2, a3, 0x2E, a4] from rfl, hpf]
    refine ⟨rfl, ?_⟩
    intro h
    injection h with h
    subst h
    simp only [specDecimalValue, natOfDigits, List.foldl]
    norm_num
    ring
  · -- decimal position 9: insert at index 3
    have hpf := pyFloat_digits_dot a1 [a2, a3] a4 []
      (by intro c hc; simp at hc; rcases hc with rfl | rfl | rfl <;> assumption)
      (by intro c hc; simp at hc; subst hc; assumption)
    simp only [List.cons_append, List.nil_append, List.length_cons, List.length_nil] at hpf
    rw [if_pos (by norm_num), show pyInsert [a1, a2, a3, a4] (min (57 - 48) 3) 0x2E =
      [a1, a2, a3, 0x2E, a4] from rfl, hpf]
    refine ⟨rfl, ?_⟩
    intro h
    injection h with h
    subst h
    simp only [specDecimalValue, natOfDigits, List.foldl]
    norm_num
    ring

theorem claim_C3_witness :
    (decode frameDecimal).isOk = true ∧
    (decode frameDecimal = .ok readingDecimal →
      readingDecimal.value = .num (specDecimalValue (frameDecimal.getD 1 0)
        (frameDecimal.getD 2 0) (frameDecimal.getD 3 0) (frameDecimal.getD 4 0)
        (frameDecimal.getD 6 0 - 0x30))) :=
  claim_C3 frameDecimal readingDecimal (by decide) (by decide) (by decide) (by decide)
    (by decide) (by decide)

theorem mantissa_char_of_digitpart {c : Nat} (h : (isDigitC c || decide (c = 0x5F)) = true) :
    (isDigitC c || decide (c = 0x5F) || decide (c = 0x2E)) = true := by
  simp only [Bool.or_eq_true] at h ⊢
  tauto

theorem digitsCore_split_fuel : ∀ (n : Nat) (l : List Nat), l.length ≤ n → ∀ (acc cnt : Nat),
    ∃ pre, l = pre ++ (digitsCore acc cnt l).2.2 ∧
      ∀ c ∈ pre, (isDigitC c || decide (c = 0x5F)) = true := by
  intro n
  induction n with
  | zero =>
    intro l hlen acc cnt
    cases l with
    | nil => exact ⟨[], rfl, by simp⟩
    | cons c m => simp at hlen
  | succ k ih =>
    intro l hlen acc cnt
    cases l with
    | nil => exact ⟨[], rfl, by simp⟩
    | cons c m =>
      by_cases hc : isDigitC c = true
      · have heq : digitsCore acc cnt (c :: m) =
            digitsCore (acc * 10 + (c - 0x30)) (cnt + 1) m := by
          rw [digitsCore.eq_def]
          simp [hc]
        rw [heq]
        obtain ⟨pre, hpre, hall⟩ := ih m (by simp at hlen; omega) (acc * 10 + (c - 0x30)) (cnt + 1)
        refine ⟨c :: pre, ?_, ?_⟩
        · rw [List.cons_append, ← hpre]
        · intro x hx
          rcases List.mem_cons.mp hx with rfl | hx2
          · simp [hc]
          · exact hall x hx2
      · by_cases hu : c = 0x5F
        · subst hu
          cases m with
          | nil => exact ⟨[], rfl, by simp⟩
          | cons d m2 =>
            by_cases hd : isDigitC d = true
            · have h95 : isDigitC 0x5F = false := by decide
              have heq : digitsCore acc cnt (0x5F :: d :: m2) =
                  digitsCore (acc * 10 + (d - 0x30)) (cnt + 1) m2 := by
                rw [digitsCore.eq_def]
                simp [hd, h95]
              rw [heq]
              obtain ⟨pre, hpre, hall⟩ :=
                ih m2 (by simp at hlen; omega) (acc * 10 + (d - 0x30)) (cnt + 1)
              refine ⟨0x5F :: d :: pre, ?_, ?_⟩
              · rw [List.cons_append, List.cons_append, ← hpre]
              · intro x hx
                rcases List.mem_cons.mp hx with rfl | hx2
                · simp
                · rcases List.mem_cons.mp hx2 with rfl | hx3
                  · simp [hd]
                  · exact hall x hx3
            · have h95 : isDigitC 0x5F = false := by decide
              have heq : digitsCore acc cnt (0x5F :: d :: m2) = (acc, cnt, 0x5F :: d :: m2) := by
                rw [digitsCore.eq_def]
                simp [hd, h95]
              exact ⟨[], by rw [heq]; rfl, by simp⟩
        · have heq : digitsCore acc cnt (c :: m) = (acc, cnt, c :: m) := by
            rw [digitsCore.eq_def]
            simp [hc, hu]
          exact ⟨[], by rw [heq]; rfl, by simp⟩

theorem digitsCore_split (l : List Nat) (acc cnt : Nat) :
    ∃ pre, l = pre ++ (digitsCore acc cnt l).2.2 ∧
      ∀ c ∈ pre, (isDigitC c || decide (c = 0x5F)) = true :=
  digitsCore_split_fuel l.length l (Nat.le_refl _) acc cnt

theorem parseDigitPart?_split {s : List Nat} {v k : Nat} {r : List Nat}
    (h : parseDigitPart? s = some (v, k, r)) :
    ∃ pre, s = pre ++ r ∧ ∀ c ∈ pre, (isDigitC c || decide (c = 0x5F)) = true := by
  cases s with
  | nil => exact Option.noConfusion h
  | cons c m =>
    rw [parseDigitPart?] at h
    by_cases hc : isDigitC c = true
    · rw [if_pos hc] at h
      injection h with h
      obtain ⟨pre, hpre, hall⟩ := digitsCore_split (c :: m) 0 0
      rw [h] at hpre
      exact ⟨pre, hpre, hall⟩
    · rw [if_neg hc] at h
      exact Option.noConfusion h

theorem parseMantissa_split {s : List Nat} {q : ℚ} {r : List Nat}
    (h : parseMantissa s = some (q, r)) :
    ∃ pre, s = pre ++ r ∧
      ∀ c ∈ pre, (isDigitC c || decide (c = 0x5F) || decide (c = 0x2E)) = true := by
  rw [parseMantissa.eq_def] at h
  cases hps : parseDigitPart? s with
  | some t =>
    obtain ⟨iv, ic, r1⟩ := t
    rw [hps] at h
    simp only [] at h
    obtain ⟨pre1, hpre1, hall1⟩ := parseDigitPart?_split hps
    cases r1 with
    | nil =>
      injection h with h
      injection h with _ hr
      subst hr
      exact ⟨pre1, hpre1, fun c hc => mantissa_char_of_digitpart (hall1 c hc)⟩
    | cons c1 r2 =>
      by_cases hdot : c1 = 0x2E
      · subst hdot
        simp only [if_true] at h
        cases hps2 : parseDigitPart? r2 with
        | some t2 =>
          obtain ⟨fv, fc, r3⟩ := t2
          rw [hps2] at h
          injection h with h
          injection h with _ hr
          subst hr
          obtain ⟨pre2, hpre2, hall2⟩ := parseDigitPart?_split hps2
          refine ⟨pre1 ++ 0x2E :: pre2, ?_, ?_⟩
          · rw [hpre1, hpre2]
            simp
          · intro c hc
            rcases List.mem_append.mp hc with h1 | h2
            · exact mantissa_char_of_digitpart (hall1 c h1)
            · rcases List.mem_cons.mp h2 with rfl | h3
              · decide
              · exact mantissa_char_of_digitpart (hall2 c h3)
        | none =>
          rw [hps2] at h
          injection h with h
          injection h with _ hr
          subst hr
          refine ⟨pre1 ++ [0x2E], ?_, ?_⟩
          · rw [hpre1]
            simp
          · intro c hc
            rcases List.mem_append.mp hc with h1 | h2
            · exact mantissa_char_of_digitpart (hall1 c h1)
            · simp at h2
              subst h2
              decide
      · simp only [] at h
        rw [if_neg hdot] at h
        injection h with h
        injection h with _ hr
        subst hr
        exact ⟨pre1, hpre1, fun c hc => mantissa_char_of_digitpart (hall1 c hc)⟩
  | none =>
    rw [hps] at h
    simp only [] at h
    cases s with
    | nil => exact Option.noConfusion h
    | cons c1 r2 =>
      by_cases hdot : c1 = 0x2E
      · subst hdot
        simp only [if_true] at h
        cases hps2 : parseDigitPart? r2 with
        | some t2 =>
          obtain ⟨fv, fc, r3⟩ := t2
          rw [hps2] at h
          injection h with h
          injection h with _ hr
          subst hr
          obtain ⟨pre2, hpre2, hall2⟩ := parseDigitPart?_split hps2
          refine ⟨0x2E :: pre2, ?_, ?_⟩
          · rw [hpre2]
            simp
          · intro c hc
            rcases List.mem_cons.mp hc with rfl | h3
            · decide
            · exact mantissa_char_of_digitpart (hall2 c h3)
        | none =>
          rw [hps2] at h
          exact Option.noConfusion h
      · simp only [] at h
        rw [if_neg hdot] at h
        exact Option.noConfusion h

theorem pySplitSign_rest (t : List Nat) : t = (pySplitSign t).2 ∨
    ∃ s, (s = 0x2B ∨ s = 0x2D) ∧ t = s :: (pySplitSign t).2 := by
  cases t with
  | nil => left; rfl
  | cons c r =>
    by_cases h1 : c = 0x2B
    · subst h1
      right
      exact ⟨0x2B, Or.inl rfl, rfl⟩
    · by_cases h2 : c = 0x2D
      · subst h2
        right
        exact ⟨0x2D, Or.inr rfl, rfl⟩
      · left
        rw [pySplitSign_of_ne h1 h2]

theorem lowerAscii_cases {c x : Nat} (h : lowerAscii c = x) : c = x ∨ c = x - 0x20 := by
  unfold lowerAscii at h
  split at h
  · omega
  · omega

theorem alphabet_of_digitpart {c : Nat} (h : (isDigitC c || decide (c = 0x5F)) = true) :
    inFloatAlphabet c = true := by
  simp [isDigitC] at h
  simp [inFloatAlphabet, isDigitC, isPySpace]
  omega

theorem alphabet_of_mantissa {c : Nat}
    (h : (isDigitC c || decide (c = 0x5F) || decide (c = 0x2E)) = true) :
    inFloatAlphabet c = true := by
  simp [isDigitC] at h
  simp [inFloatAlphabet, isDigitC, isPySpace]
  omega

theorem mem_strip_or_space {s : List Nat} {c : Nat} (hc : c ∈ s) :
    c ∈ stripPySpaces s ∨ isPySpace c = true := by
  unfold stripPySpaces
  have h1 : c ∈ s.dropWhile isPySpace ∨ isPySpace c = true := by
    rcases List.mem_append.mp
        ((List.takeWhile_append_dropWhile isPySpace s) ▸ hc) with h | h
    · exact Or.inr (List.mem_takeWhile_imp h)
    · exact Or.inl h
  rcases h1 with h1 | h1
  · have h2 : c ∈ (s.dropWhile isPySpace).reverse := List.mem_reverse.mpr h1
    rcases List.mem_append.mp
        ((List.takeWhile_append_dropWhile isPySpace (s.dropWhile isPySpace).reverse) ▸ h2)
        with h | h
    · exact Or.inr (List.mem_takeWhile_imp h)
    · exact Or.inl (List.mem_reverse.mpr h)
  · exact Or.inr h1

theorem parseExp_alphabet {q q2 : ℚ} {r : List Nat} (h : parseExp q r = some q2) :
    ∀ c ∈ r, inFloatAlphabet c = true := by
  cases r with
  | nil =>
    intro c hc
    exact absurd hc (List.not_mem_nil c)
  | cons e r1 =>
    rw [parseExp] at h
    by_cases he : e = 0x65 ∨ e = 0x45
    · rw [if_pos he] at h
      cases hps : parseDigitPart? (pySplitSign r1).2 with
      | none =>
        rw [hps] at h
        exact Option.noConfusion h
      | some t =>
        obtain ⟨ev, ec, r3⟩ := t
        rw [hps] at h
        simp only [] at h
        by_cases hr3 : r3 = []
        · subst hr3
          obtain ⟨pre, hpre, hall⟩ := parseDigitPart?_split hps
          rw [List.append_nil] at hpre
          intro c hc
          rcases List.mem_cons.mp hc with rfl | hc1
          · simp [inFloatAlphabet, isDigitC, isPySpace]
            omega
          · rcases pySplitSign_rest r1 with ht | ⟨sg, hsg, ht⟩
            · rw [ht, hpre] at hc1
              exact alphabet_of_digitpart (hall c hc1)
            · rw [ht] at hc1
              rcases List.mem_cons.mp hc1 with rfl | hc2
              · simp [inFloatAlphabet, isDigitC, isPySpace]
                omega
              · rw [hpre] at hc2
                exact alphabet_of_digitpart (hall c hc2)
        · rw [if_neg hr3] at h
          exact Option.noConfusion h
    · rw [if_neg he] at h
      exact Option.noConfusion h

theorem alphabet_of_lower_letter {c : Nat}
    (h : lowerAscii c = 0x69 ∨ lowerAscii c = 0x6E ∨ lowerAscii c = 0x66 ∨
         lowerAscii c = 0x74 ∨ lowerAscii c = 0x79 ∨ lowerAscii c = 0x61) :
    inFloatAlphabet c = true := by
  unfold lowerAscii at h
  simp [inFloatAlphabet, isDigitC, isPySpace]
  split at h <;> omega

theorem alphabet_of_sign {c : Nat} (h : c = 0x2B ∨ c = 0x2D) :
    inFloatAlphabet c = true := by
  simp [inFloatAlphabet, isDigitC, isPySpace]
  omega

theorem pyFloat_alphabet {s : List Nat} {v : Value} (h : pyFloat s = some v) :
    ∀ c ∈ s, inFloatAlphabet c = true := by
  intro c hc
  rcases mem_strip_or_space hc with hmem | hsp
  · have hcu : c ∈ (pySplitSign (stripPySpaces s)).2 ∨ inFloatAlphabet c = true := by
      rcases pySplitSign_rest (stripPySpaces s) with hrest | ⟨sg, hsg, hrest⟩
      · exact Or.inl (hrest ▸ hmem)
      · rw [hrest] at hmem
        rcases List.mem_cons.mp hmem with rfl | hcu
        · exact Or.inr (alphabet_of_sign hsg)
        · exact Or.inl hcu
    rcases hcu with hcu | hdone
    · simp only [pyFloat] at h
      split at h
      · next hlu =>
        have hmm := List.mem_map_of_mem lowerAscii hcu
        rcases hlu with hlu | hlu <;> rw [hlu] at hmm <;> simp at hmm <;>
          exact alphabet_of_lower_letter (by tauto)
      · split at h
        · next hlu =>
          have hmm := List.mem_map_of_mem lowerAscii hcu
          rw [hlu] at hmm
          simp at hmm
          exact alphabet_of_lower_letter (by tauto)
        · cases hpm : parseMantissa (pySplitSign (stripPySpaces s)).2 with
          | none =>
            rw [hpm] at h
            exact Option.noConfusion h
          | some t =>
            obtain ⟨q0, r0⟩ := t
            rw [hpm] at h
            simp only [] at h
            cases hpe : parseExp q0 r0 with
            | none =>
              rw [hpe] at h
              exact Option.noConfusion h
            | some q2 =>
              obtain ⟨pre, hpre, hall⟩ := parseMantissa_split hpm
              rw [hpre] at hcu
              rcases List.mem_append.mp hcu with h1 | h2
              · exact alphabet_of_mantissa (hall c h1)
              · exact parseExp_alphabet hpe c h2
    · exact hdone
  · simp [inFloatAlphabet, hsp]

theorem mem_pyInsert {x : Nat} {l : List Nat} (i c : Nat) (h : x ∈ l) :
    x ∈ pyInsert l i c := by
  unfold pyInsert
  rcases List.mem_append.mp ((List.take_append_drop i l) ▸ h) with h1 | h1
  · exact List.mem_append.mpr (Or.inl h1)
  · exact List.mem_append.mpr (Or.inr (List.mem_cons_of_mem c h1))

set_option maxRecDepth 4000 in
/-- Claim C7 (amended): a 14-byte frame whose decimal-position byte is an
ASCII digit and whose digit bytes 1-4 are ASCII characters other than the
sentinel `?0:?` fails with the InvalidDigits error whenever at least one
digit byte lies outside the alphabet of Python float literals (decimal
digits, signs, the decimal point, the exponent markers, the underscore,
the letters of `inf`/`infinity`/`nan` in either case, and whitespace).
(The original claim — that any non-digit, non-sentinel digit bytes fail —
is refuted by `counterexample_C7`: digit bytes such as `+123` are accepted
by Python's `float` and yield a Reading.) -/
theorem claim_C7 (l : List Nat) (h14 : l.length = 14)
    (ha1 : l.getD 1 0 < 0x80) (ha2 : l.getD 2 0 < 0x80) (ha3 : l.getD 3 0 < 0x80)
    (ha4 : l.getD 4 0 < 0x80) (hd6 : isDigitC (l.getD 6 0) = true)
    (hsent : [l.getD 1 0, l.getD 2 0, l.getD 3 0, l.getD 4 0] ≠ overrangeSentinel)
    (hbad : inFloatAlphabet (l.getD 1 0) = false ∨ inFloatAlphabet (l.getD 2 0) = false ∨
      inFloatAlphabet (l.getD 3 0) = false ∨ inFloatAlphabet (l.getD 4 0) = false) :
    decode l = .error .invalidDigits := by
  obtain ⟨a0, a1, a2, a3, a4, a5, a6, a7, a8, a9, a10, a11, a12, a13, rfl⟩ := eq_cons14 l h14
  simp only [List.getD_cons_zero, List.getD_cons_succ] at ha1 ha2 ha3 ha4 hd6 hsent hbad ⊢
  obtain ⟨b6lo, b6hi⟩ := digit_bounds hd6
  have hasc : utf8Decode [a1, a2, a3, a4] = some [a1, a2, a3, a4] := by
    apply utf8Decode_ascii
    intro c hc
    simp at hc
    rcases hc with rfl | rfl | rfl | rfl <;> assumption
  have hdp : parseDecPos a6 = some (a6 - 0x30) := by
    unfold parseDecPos
    exact if_pos ⟨b6lo, b6hi⟩
  simp only [decode, List.length_cons, List.length_nil, List.drop_succ_cons, List.drop_zero,
    List.take_succ_cons, List.take_zero, hasc, if_neg hsent, List.getD_cons_zero,
    List.getD_cons_succ, hdp]
  norm_num
  have hnone : pyFloat (if 0x30 < a6 then
      pyInsert [a1, a2, a3, a4] ((a6 - 0x30) ⊓ 3) 0x2E else [a1, a2, a3, a4]) = none := by
    cases hpf : pyFloat (if 0x30 < a6 then
        pyInsert [a1, a2, a3, a4] ((a6 - 0x30) ⊓ 3) 0x2E else [a1, a2, a3, a4]) with
    | none => rfl
    | some v =>
      exfalso
      have halpha := pyFloat_alphabet hpf
      have hmem : ∀ x ∈ ([a1, a2, a3, a4] : List Nat), x ∈ (if 0x30 < a6 then
          pyInsert [a1, a2, a3, a4] ((a6 - 0x30) ⊓ 3) 0x2E else [a1, a2, a3, a4]) := by
        intro x hx
        split
        · exact mem_pyInsert _ _ hx
        · exact hx
      rcases hbad with hb | hb | hb | hb
      · have := halpha a1 (hmem a1 (by simp))
        rw [hb] at this
        exact Bool.noConfusion this
      · have := halpha a2 (hmem a2 (by simp))
        rw [hb] at this
        exact Bool.noConfusion this
      · have := halpha a3 (hmem a3 (by simp))
        rw [hb] at this
        exact Bool.noConfusion this
      · have := halpha a4 (hmem a4 (by simp))
        rw [hb] at this
        exact Bool.noConfusion this
  rw [hnone]

theorem counterexample_C7 :
    decode framePlusDigits = .ok readingPlusDigits ∧
    decode framePlusDigits ≠ .error .invalidDigits := by
  constructor
  · decide
  · decide

theorem claim_C7_witness : decode frameBarDigits = .error .invalidDigits :=
  claim_C7 frameBarDigits (by decide) (by decide) (by decide) (by decide) (by decide)
    (by decide) (by decide) (by decide)

end PT2025
